import Mathlib

set_option maxHeartbeats 1000000
set_option maxRecDepth 100000

/-!
Shallow embedding of the pagination/reflow core of the rednote slide maker.

JavaScript strings are modelled as `List Char` (`JStr`); JS arrays as `List`.
The embedded functions mirror, line for line:
  * `splitIntoSentences`, `reflowContent`, `getLineCost` and the paginator
    loop of `generateSlidesFromText` (src/services/geminiService.ts);
  * the finishing pass of `generateSlidesFromText` (page numbering,
    category backfill, presentation defaults);
  * `reindexSlides` (src/App.tsx);
  * the raw-paragraph ingestion `rawParagraphs` (src/server.js).
JS `Math.ceil(len / k)` on naturals is `(len + k - 1) / k`; JS `x.trim()`
is modelled with `Char.isWhitespace`; the negative-capable JS expression
`MAX_LINES_PER_PAGE - currentLinesUsed` only ever feeds the comparisons
`<= 1` and the split arithmetic guarded by `>= 2`, where truncated `Nat`
subtraction agrees with JS number subtraction.
-/

/-- A JavaScript string, modelled as its list of characters. -/
abbrev JStr := List Char

def MAX_LINES_PER_PAGE : Nat := 19
def CHARS_PER_LINE : Nat := 22
def MAX_CHARS_PER_PARA : Nat := 69

/-- Characters of the sentence-boundary class `[。！？.!?]` of the regex in
`splitIntoSentences`. -/
def isBoundary (c : Char) : Bool :=
  c = '。' || c = '！' || c = '？' || c = '.' || c = '!' || c = '?'

/-- The leftmost regex match starting at the head of `l`: a maximal
non-boundary run together with the maximal boundary run that follows it
(matching `[^。！？.!?]+[。！？.!?]+`, or `[^。！？.!?]+$` when the
non-boundary run reaches the end of the string). -/
def sentenceAt (l : JStr) : JStr :=
  l.takeWhile (fun x => !isBoundary x) ++
    (l.dropWhile (fun x => !isBoundary x)).takeWhile isBoundary

/-- The rest of the input after the match `sentenceAt l`. -/
def afterSentence (l : JStr) : JStr :=
  (l.dropWhile (fun x => !isBoundary x)).dropWhile isBoundary

theorem afterSentence_length_le (l : JStr) :
    (afterSentence l).length ≤ l.length :=
  le_trans (List.dropWhile_sublist _).length_le (List.dropWhile_sublist _).length_le

theorem afterSentence_cons_lt (c : Char) (cs : JStr) (h : isBoundary c = false) :
    (afterSentence (c :: cs)).length < (c :: cs).length := by
  have h1 : (c :: cs).dropWhile (fun x => !isBoundary x) =
      cs.dropWhile (fun x => !isBoundary x) := by
    rw [List.dropWhile_cons]
    simp [h]
  unfold afterSentence
  rw [h1]
  exact Nat.lt_succ_of_le
    (le_trans (List.dropWhile_sublist _).length_le (List.dropWhile_sublist _).length_le)

/-- Scanning loop of `text.match(/[^。！？.!?]+[。！？.!?]+|[^。！？.!?]+$/g)`:
positions holding a boundary character cannot start a match and are
skipped; at a non-boundary position the leftmost match is `sentenceAt`
and scanning resumes after it. -/
def sentencesCore (l : JStr) : List JStr :=
  match l with
  | [] => []
  | c :: cs =>
    if h : isBoundary c then sentencesCore cs
    else sentenceAt (c :: cs) :: sentencesCore (afterSentence (c :: cs))
termination_by l.length
decreasing_by
  · simp
  · exact afterSentence_cons_lt c cs (by simpa using h)

/-- Model of `splitIntoSentences` (geminiService.ts line 31): the regex
match result, or `[text]` when the match is `null` (no match exists). -/
def splitIntoSentences (text : JStr) : List JStr :=
  match sentencesCore text with
  | [] => [text]
  | s :: ss => s :: ss

/-- Model of the mutation `buffer[i+1] = last + buffer[i+1]` /
`buffer.push(last)` of `reflowContent` (geminiService.ts lines 57-61). -/
def prependToNext (last : JStr) (rest : List JStr) : List JStr :=
  match rest with
  | [] => [last]
  | r :: rs => (last ++ r) :: rs

theorem sentenceAt_append_afterSentence (l : JStr) :
    sentenceAt l ++ afterSentence l = l := by
  unfold sentenceAt afterSentence
  rw [List.append_assoc, List.takeWhile_append_dropWhile, List.takeWhile_append_dropWhile]

theorem sentencesCore_ne_nil (l : JStr) :
    ∀ s ∈ sentencesCore l, s ≠ [] := by
  induction l using sentencesCore.induct with
  | case1 => intro s hs; simp [sentencesCore] at hs
  | case2 c cs h ih =>
    intro s hs
    rw [sentencesCore] at hs
    simp only [dif_pos h] at hs
    exact ih s hs
  | case3 c cs h ih =>
    intro s hs
    rw [sentencesCore] at hs
    simp only [dif_neg h] at hs
    rcases List.mem_cons.mp hs with h1 | h1
    · subst h1
      intro hemp
      have h2 : (c :: cs).takeWhile (fun x => !isBoundary x) = [] := by
        rcases List.append_eq_nil.mp hemp with ⟨h3, _⟩
        exact h3
      rw [List.takeWhile_cons] at h2
      simp [h] at h2
    · exact ih s h1

theorem sentencesCore_flatten_length_le (l : JStr) :
    ((sentencesCore l).flatten).length ≤ l.length := by
  induction l using sentencesCore.induct with
  | case1 => simp [sentencesCore]
  | case2 c cs h ih =>
    rw [sentencesCore]
    simp only [dif_pos h]
    exact le_trans ih (Nat.le_succ _)
  | case3 c cs h ih =>
    rw [sentencesCore]
    simp only [dif_neg h, List.flatten_cons, List.length_append]
    calc (sentenceAt (c :: cs)).length + ((sentencesCore (afterSentence (c :: cs))).flatten).length
        ≤ (sentenceAt (c :: cs)).length + (afterSentence (c :: cs)).length :=
          Nat.add_le_add_left ih _
      _ = (sentenceAt (c :: cs) ++ afterSentence (c :: cs)).length := (List.length_append _ _).symm
      _ = (c :: cs).length := by rw [sentenceAt_append_afterSentence]

theorem splitIntoSentences_ne_nil (text : JStr)
    (h2 : 2 ≤ (splitIntoSentences text).length) :
    ∀ s ∈ splitIntoSentences text, s ≠ [] := by
  intro s hs
  unfold splitIntoSentences at hs h2
  cases hcore : sentencesCore text with
  | nil => rw [hcore] at h2; simp at h2
  | cons a as =>
    rw [hcore] at hs
    exact sentencesCore_ne_nil text s (hcore ▸ hs)

theorem splitIntoSentences_eq_core (text : JStr)
    (h2 : 2 ≤ (splitIntoSentences text).length) :
    splitIntoSentences text = sentencesCore text := by
  unfold splitIntoSentences at *
  cases hcore : sentencesCore text with
  | nil => rw [hcore] at h2; simp at h2
  | cons a as => rfl

theorem splitIntoSentences_flatten_le (text : JStr)
    (h : 2 ≤ (splitIntoSentences text).length) :
    ((splitIntoSentences text).flatten).length ≤ text.length := by
  rw [splitIntoSentences_eq_core text h]
  exact sentencesCore_flatten_length_le text

/-- Model of JS `a.startsWith(b)` on character lists: `hasPrefixCL b a`
tests whether `a` starts with `b`. -/
def hasPrefixCL : JStr → JStr → Bool
  | [], _ => true
  | _ :: _, [] => false
  | a :: as, b :: bs => a == b && hasPrefixCL as bs

/-- The test `current.startsWith('#')` of reflowContent and the paginator. -/
def isHeading (s : JStr) : Bool := hasPrefixCL ['#'] s

/-- Total character count of a working buffer. -/
def charSum (l : List JStr) : Nat := (l.map List.length).sum

theorem charSum_cons (c : JStr) (l : List JStr) :
    charSum (c :: l) = c.length + charSum l := by
  simp [charSum]

theorem prependToNext_charSum (last : JStr) (rest : List JStr) :
    charSum (prependToNext last rest) = last.length + charSum rest := by
  cases rest with
  | nil => simp [prependToNext, charSum]
  | cons r rs => simp [prependToNext, charSum]; omega

theorem prependToNext_length (last : JStr) (rest : List JStr) :
    (prependToNext last rest).length = max rest.length 1 := by
  cases rest with
  | nil => simp [prependToNext]
  | cons r rs => simp [prependToNext]

theorem remainder_flatten_lt (current : JStr)
    (h2 : 2 ≤ (splitIntoSentences current).length) :
    ((splitIntoSentences current).dropLast.flatten).length < current.length := by
  have hne : splitIntoSentences current ≠ [] := by
    intro hh; rw [hh] at h2; simp at h2
  have hlast : (splitIntoSentences current).getLast hne ∈ splitIntoSentences current :=
    List.getLast_mem hne
  have hlast_ne : (splitIntoSentences current).getLast hne ≠ [] :=
    splitIntoSentences_ne_nil current h2 _ hlast
  have hsplit : (splitIntoSentences current).dropLast ++
      [(splitIntoSentences current).getLast hne] = splitIntoSentences current :=
    List.dropLast_concat_getLast hne
  have hflat : ((splitIntoSentences current).dropLast.flatten).length +
      ((splitIntoSentences current).getLast hne).length =
      ((splitIntoSentences current).flatten).length := by
    conv_rhs => rw [← hsplit]
    rw [List.flatten_append]
    simp
  have hle := splitIntoSentences_flatten_le current h2
  have hpos : 0 < ((splitIntoSentences current).getLast hne).length :=
    List.length_pos.mpr hlast_ne
  omega

/-- Model of the `while (current.length > MAX_CHARS_PER_PARA)` loop of
`reflowContent` (geminiService.ts lines 48-62), with the current slot and
the not-yet-visited tail of the working buffer as explicit state. -/
def shrinkPara (current : JStr) (rest : List JStr) : JStr × List JStr :=
  if MAX_CHARS_PER_PARA < current.length then
    if 2 ≤ (splitIntoSentences current).length then
      shrinkPara ((splitIntoSentences current).dropLast.flatten)
        (prependToNext ((splitIntoSentences current).getLastD []) rest)
    else (current, rest)
  else (current, rest)
termination_by current.length
decreasing_by
  exact remainder_flatten_lt current (by assumption)

theorem shrinkPara_spec (current : JStr) (rest : List JStr) :
    shrinkPara current rest = (current, rest) ∨
    (1 ≤ (shrinkPara current rest).1.length ∧
     (shrinkPara current rest).1.length + charSum (shrinkPara current rest).2 ≤
       current.length + charSum rest ∧
     (shrinkPara current rest).2.length ≤ max rest.length 1) := by
  induction current, rest using shrinkPara.induct with
  | case1 current rest hlen h2 ih =>
    rw [shrinkPara, if_pos hlen, if_pos h2]
    have hne : splitIntoSentences current ≠ [] := by
      intro hh; rw [hh] at h2; simp at h2
    have hlast_ne : (splitIntoSentences current).getLast hne ≠ [] :=
      splitIntoSentences_ne_nil current h2 _ (List.getLast_mem hne)
    have hlastD : (splitIntoSentences current).getLastD [] =
        (splitIntoSentences current).getLast hne := by
      rw [List.getLastD_eq_getLast?, List.getLast?_eq_getLast _ hne]
      rfl
    have hsplit : (splitIntoSentences current).dropLast ++
        [(splitIntoSentences current).getLast hne] = splitIntoSentences current :=
      List.dropLast_concat_getLast hne
    have hflat : ((splitIntoSentences current).dropLast.flatten).length +
        ((splitIntoSentences current).getLast hne).length =
        ((splitIntoSentences current).flatten).length := by
      conv_rhs => rw [← hsplit]
      rw [List.flatten_append]
      simp
    have hle := splitIntoSentences_flatten_le current h2
    have hlastpos : 0 < ((splitIntoSentences current).getLast hne).length :=
      List.length_pos.mpr hlast_ne
    have hrem_pos : 0 < ((splitIntoSentences current).dropLast.flatten).length := by
      have hdl : (splitIntoSentences current).dropLast ≠ [] := by
        intro hh
        have := congrArg List.length hsplit
        rw [hh] at this
        simp at this
        omega
      cases hdl2 : (splitIntoSentences current).dropLast with
      | nil => exact absurd hdl2 hdl
      | cons d ds =>
        have hd_mem : d ∈ splitIntoSentences current := by
          have : d ∈ (splitIntoSentences current).dropLast := by rw [hdl2]; simp
          exact (List.dropLast_sublist _).subset this
        have hd_ne : d ≠ [] := splitIntoSentences_ne_nil current h2 d hd_mem
        have : 0 < d.length := List.length_pos.mpr hd_ne
        rw [List.flatten_cons, List.length_append]
        omega
    have hchars : charSum (prependToNext ((splitIntoSentences current).getLastD []) rest) =
        ((splitIntoSentences current).getLast hne).length + charSum rest := by
      rw [prependToNext_charSum, hlastD]
    have hlenp : (prependToNext ((splitIntoSentences current).getLastD []) rest).length =
        max rest.length 1 := prependToNext_length _ _
    rcases ih with heq | ⟨i1, i2, i3⟩
    · rw [heq]
      right
      refine ⟨hrem_pos, ?_, ?_⟩
      · simp only [hchars]
        omega
      · rw [hlenp]
    · right
      refine ⟨i1, ?_, ?_⟩
      · rw [hchars] at i2
        omega
      · rw [hlenp] at i3
        omega
  | case2 current rest hlen h2 =>
    rw [shrinkPara, if_pos hlen, if_neg h2]
    left; rfl
  | case3 current rest hlen =>
    rw [shrinkPara, if_neg hlen]
    left; rfl

/-- Model of `reflowContent` (geminiService.ts lines 36-66): walk the
working buffer slot by slot; a slot starting with `'#'` is pushed
unchanged, otherwise it is shrunk by the while-loop (`shrinkPara`), which
may prepend removed tail sentences onto the next slot or push a new
trailing slot. -/
def reflowContent (content : List JStr) : List JStr :=
  match content with
  | [] => []
  | c :: rest =>
    if isHeading c then c :: reflowContent rest
    else
      (shrinkPara c rest).1 :: reflowContent (shrinkPara c rest).2
termination_by charSum content + content.length
decreasing_by
  · simp [charSum_cons]
    omega
  · rcases shrinkPara_spec s ss with heq | ⟨i1, i2, i3⟩
    · rw [heq]
      simp [charSum_cons]
      omega
    · simp only [charSum_cons, List.length_cons]
      omega

/-- Model of `getLineCost` (geminiService.ts lines 69-76); the blank test
`text.trim() === ''` holds exactly when every character is whitespace, and
`Math.ceil(len / CHARS_PER_LINE)` is `(len + 21) / 22` on naturals. -/
def getLineCost (text : JStr) : Nat :=
  if hasPrefixCL ['#', '#', ' '] text then 3
  else if hasPrefixCL ['#', '#', '#', ' '] text then 2
  else if text.all Char.isWhitespace then 0
  else (text.length + (CHARS_PER_LINE - 1)) / CHARS_PER_LINE + 1

/-- Mutable state of the paginator loop of `generateSlidesFromText`
(geminiService.ts lines 88-134): the chunk being assembled, its running
line total `currentLinesUsed`, and the pages flushed so far. -/
structure PagState where
  chunk : List JStr
  used : Nat
  pages : List (List JStr)
deriving DecidableEq

def pagInit : PagState := ⟨[], 0, []⟩

/-- One iteration of the paginator loop (geminiService.ts lines 91-127). -/
def pagStep (st : PagState) (paragraph : JStr) : PagState :=
  let cost := getLineCost paragraph
  if st.used + cost ≤ MAX_LINES_PER_PAGE then
    { st with chunk := st.chunk ++ [paragraph], used := st.used + cost }
  else
    let remainingLines := MAX_LINES_PER_PAGE - st.used
    if isHeading paragraph then
      { chunk := [paragraph], used := cost,
        pages := if st.chunk.isEmpty then st.pages else st.pages ++ [st.chunk] }
    else if remainingLines ≤ 1 then
      { chunk := [paragraph], used := cost, pages := st.pages ++ [st.chunk] }
    else
      let maxChars := (remainingLines - 1) * CHARS_PER_LINE
      let part1 := paragraph.take maxChars
      let part2 := paragraph.drop maxChars
      { chunk := [part2], used := getLineCost part2,
        pages := st.pages ++ [st.chunk ++ [part1]] }

/-- The flush of the last non-empty chunk (geminiService.ts lines 129-134). -/
def pagFinish (st : PagState) : List (List JStr) :=
  if st.chunk.isEmpty then st.pages else st.pages ++ [st.chunk]

/-- The paginator: the loop over the reflowed content followed by the
final flush. -/
def paginate (content : List JStr) : List (List JStr) :=
  pagFinish (content.foldl pagStep pagInit)

/-- The values of the `type` field of a slide. -/
inductive SlideType where
  | cover
  | content
  | promo
deriving DecidableEq

/-- The slide record (src/types.ts `SlideData`). Optional string fields
that the code combines with JS `||` (where both `undefined` and `""` are
falsy) are modelled as `JStr` with `[]` for absent/empty. -/
structure Slide where
  id : JStr
  type : SlideType
  title : JStr
  content : List JStr
  subtitle : JStr
  category : JStr
  tags : Option (List JStr)
  pageNumber : Option Nat
  totalPages : Option Nat
  backgroundImage : Option JStr
  titleFontSize : Option Nat
  coverStyle : Option JStr
deriving DecidableEq

/-- Model of the per-slide body of `generatedData.forEach` (geminiService.ts
lines 80-135): non-content slides (and content slides with empty content)
pass through untouched; content slides are reflowed, paginated, and each
page becomes a copy of the slide with `content` replaced. -/
def paginateSlide (slide : Slide) : List Slide :=
  if slide.type ≠ SlideType.content ∨ slide.content = [] then [slide]
  else (paginate (reflowContent slide.content)).map
    (fun pg => { slide with content := pg })

/-- JS `a || b` for string-valued fields (`""` and absent are falsy). -/
def jsOrStr (a b : JStr) : JStr := if a.isEmpty then b else a

def defaultCategory : JStr := "Knowledge System".toList

def defaultBackground : JStr :=
  "https://images.unsplash.com/photo-1618005182384-a83a8bd57fbe?q=80&w=600&auto=format&fit=crop".toList

def defaultTags : List JStr := ["干货满满".toList, "建议收藏".toList]

/-- The category taken from the first cover slide, defaulted through JS
`||` (geminiService.ts line 141). -/
def coverCategoryOf (slides : List Slide) : JStr :=
  jsOrStr (match slides.find? (fun s => s.type == SlideType.cover) with
           | some s => s.category
           | none => []) defaultCategory

/-- Map over a list with the running element index. -/
def mapWithIndex (f : Nat → Slide → Slide) : Nat → List Slide → List Slide
  | _, [] => []
  | i, s :: ss => f i s :: mapWithIndex f (i + 1) ss

/-- Model of the finishing pass (geminiService.ts lines 137-154): page
number and total assignment, category backfill and presentation defaults
over the flattened slide list. `mkId` abstracts the impure id string
`slide-${Date.now()}-${index}`. -/
def finishingPass (mkId : Nat → JStr) (finalData : List Slide) : List Slide :=
  mapWithIndex (fun index slide =>
    { slide with
      id := mkId index
      pageNumber := some (index + 1)
      totalPages := some finalData.length
      category := jsOrStr slide.category (coverCategoryOf finalData)
      backgroundImage := if slide.type == SlideType.cover then some defaultBackground else none
      tags := some (slide.tags.getD defaultTags)
      titleFontSize := if slide.type == SlideType.cover then some 48 else none
      coverStyle := if slide.type == SlideType.cover then some ("classic".toList) else none })
    0 finalData

/-- The deterministic tail of `generateSlidesFromText`: pagination of the
fetched slide list followed by the finishing pass. -/
def generatePipeline (mkId : Nat → JStr) (generatedData : List Slide) : List Slide :=
  finishingPass mkId ((generatedData.map paginateSlide).flatten)

/-- Model of the numbering loop of `reindexSlides` (src/App.tsx lines
66-76): `m` is the non-cover slide count, `idx` the running
`contentIndex`. -/
def reindexGo (m : Nat) : Nat → List Slide → List Slide
  | _, [] => []
  | idx, s :: ss =>
    if s.type == SlideType.cover then
      { s with totalPages := some m } :: reindexGo m idx ss
    else
      { s with pageNumber := some (idx + 1), totalPages := some m } :: reindexGo m (idx + 1) ss

/-- Model of `reindexSlides` (src/App.tsx lines 54-77). -/
def reindexSlides (slides : List Slide) : List Slide :=
  reindexGo ((slides.filter (fun s => s.type != SlideType.cover)).length) 0 slides

/-- Model of JS `text.split(/\n+/)`: the pieces between maximal runs of
newline characters, with an empty leading (trailing) piece when the text
starts (ends) with a newline. -/
def splitNLRuns (l : JStr) : List JStr :=
  match l with
  | [] => [[]]
  | c :: cs =>
    if c = '\n' then [] :: splitNLRuns (cs.dropWhile (fun x => x = '\n'))
    else
      match splitNLRuns cs with
      | [] => [[c]]
      | s :: ss => (c :: s) :: ss
termination_by l.length
decreasing_by
  · exact Nat.lt_succ_of_le (List.dropWhile_sublist _).length_le
  · simp

/-- Model of JS `line.trim()` (whitespace stripped from both ends). -/
def jsTrim (s : JStr) : JStr :=
  ((s.dropWhile Char.isWhitespace).reverse.dropWhile Char.isWhitespace).reverse

/-- Model of `rawParagraphs` (src/server.js line 147):
`text.split(/\n+/).filter(line => line.trim().length > 0)`. -/
def rawParagraphs (text : JStr) : List JStr :=
  (splitNLRuns text).filter (fun line => 0 < (jsTrim line).length)

/-- Splitting at every single newline character (plain line split). -/
def splitOnNL (l : JStr) : List JStr :=
  match l with
  | [] => [[]]
  | c :: cs =>
    if c = '\n' then [] :: splitOnNL cs
    else
      match splitOnNL cs with
      | [] => [[c]]
      | s :: ss => (c :: s) :: ss

/-- A line consisting only of whitespace (or empty). -/
def isBlankLine (l : JStr) : Bool := l.all Char.isWhitespace

/-- Groups of consecutive non-blank lines, each group rejoined with a
newline; blank lines separate groups and are discarded. -/
def groupNonBlank (lines : List JStr) : List JStr :=
  match lines with
  | [] => []
  | l :: ls =>
    if isBlankLine l then groupNonBlank ls
    else (List.intercalate ['\n'] ((l :: ls).takeWhile (fun x => !isBlankLine x)))
           :: groupNonBlank ((l :: ls).dropWhile (fun x => !isBlankLine x))
termination_by lines.length
decreasing_by
  · simp
  · rename_i h
    rw [List.dropWhile_cons]
    simp only [h]
    simp
    exact Nat.lt_succ_of_le (List.dropWhile_sublist _).length_le

/-- Modelled from the spec: the claimed ingestion rule of C5 — split the
raw text into paragraphs at runs of one or more blank lines (maximal
groups of non-blank lines, rejoined with newlines), trim each paragraph,
and discard the empty ones. -/
def specSplitParagraphs (text : JStr) : List JStr :=
  ((groupNonBlank (splitOnNL text)).map jsTrim).filter (fun p => !p.isEmpty)

/-- Fuelled structural evaluator for `sentencesCore` (used to compute the
well-founded definition on concrete inputs inside kernel-checked proofs). -/
def sentencesCoreF : Nat → JStr → List JStr
  | 0, _ => []
  | fuel + 1, l =>
    match l with
    | [] => []
    | c :: cs =>
      if isBoundary c then sentencesCoreF fuel cs
      else sentenceAt (c :: cs) :: sentencesCoreF fuel (afterSentence (c :: cs))

theorem sentencesCoreF_eq (fuel : Nat) (l : JStr) (h : l.length ≤ fuel) :
    sentencesCoreF fuel l = sentencesCore l := by
  induction fuel generalizing l with
  | zero =>
    have hl : l = [] := List.eq_nil_of_length_eq_zero (Nat.le_zero.mp h)
    subst hl
    rw [sentencesCore]
    rfl
  | succ fuel ih =>
    cases l with
    | nil => rw [sentencesCore]; rfl
    | cons c cs =>
      rw [sentencesCore]
      show (if isBoundary c then sentencesCoreF fuel cs
            else sentenceAt (c :: cs) :: sentencesCoreF fuel (afterSentence (c :: cs))) = _
      by_cases hb : isBoundary c
      · rw [if_pos hb, dif_pos hb]
        exact ih cs (by simpa using h)
      · rw [if_neg hb, dif_neg hb]
        have hlt := afterSentence_cons_lt c cs (by simpa using hb)
        have : (afterSentence (c :: cs)).length ≤ fuel := by
          simp only [List.length_cons] at hlt h
          omega
        rw [ih (afterSentence (c :: cs)) this]

/-- Structural evaluator for `splitIntoSentences`. -/
def splitIntoSentencesF (text : JStr) : List JStr :=
  match sentencesCoreF text.length text with
  | [] => [text]
  | s :: ss => s :: ss

theorem splitIntoSentencesF_eq (text : JStr) :
    splitIntoSentencesF text = splitIntoSentences text := by
  unfold splitIntoSentencesF splitIntoSentences
  rw [sentencesCoreF_eq text.length text (le_refl _)]

/-- Fuelled structural evaluator for `shrinkPara`. -/
def shrinkParaF : Nat → JStr → List JStr → JStr × List JStr
  | 0, current, rest => (current, rest)
  | fuel + 1, current, rest =>
    if MAX_CHARS_PER_PARA < current.length then
      if 2 ≤ (splitIntoSentencesF current).length then
        shrinkParaF fuel ((splitIntoSentencesF current).dropLast.flatten)
          (prependToNext ((splitIntoSentencesF current).getLastD []) rest)
      else (current, rest)
    else (current, rest)

theorem shrinkParaF_eq (fuel : Nat) (current : JStr) (rest : List JStr)
    (h : current.length ≤ fuel) :
    shrinkParaF fuel current rest = shrinkPara current rest := by
  induction fuel generalizing current rest with
  | zero =>
    have hl : current = [] := List.eq_nil_of_length_eq_zero (Nat.le_zero.mp h)
    subst hl
    rw [shrinkPara]
    rfl
  | succ fuel ih =>
    rw [shrinkPara]
    show (if MAX_CHARS_PER_PARA < current.length then _ else _) = _
    by_cases h1 : MAX_CHARS_PER_PARA < current.length
    · rw [if_pos h1, if_pos h1, splitIntoSentencesF_eq]
      by_cases h2 : 2 ≤ (splitIntoSentences current).length
      · rw [if_pos h2, if_pos h2]
        have hlt := remainder_flatten_lt current h2
        exact ih _ _ (by omega)
      · rw [if_neg h2, if_neg h2]
    · rw [if_neg h1, if_neg h1]

/-- Fuelled structural evaluator for `reflowContent`. -/
def reflowContentF : Nat → List JStr → List JStr
  | 0, _ => []
  | fuel + 1, l =>
    match l with
    | [] => []
    | c :: rest =>
      if isHeading c then c :: reflowContentF fuel rest
      else
        (shrinkParaF c.length c rest).1 :: reflowContentF fuel (shrinkParaF c.length c rest).2

theorem reflowContentF_eq (fuel : Nat) (l : List JStr)
    (h : charSum l + l.length ≤ fuel) :
    reflowContentF fuel l = reflowContent l := by
  induction fuel generalizing l with
  | zero =>
    have hl : l = [] := by
      cases l with
      | nil => rfl
      | cons c cs => simp [charSum_cons, List.length_cons] at h
    subst hl
    rw [reflowContent]
    rfl
  | succ fuel ih =>
    cases l with
    | nil => rw [reflowContent]; rfl
    | cons c rest =>
      rw [reflowContent]
      show (if isHeading c then c :: reflowContentF fuel rest
            else _ :: reflowContentF fuel _) = _
      rw [shrinkParaF_eq c.length c rest (le_refl _)]
      by_cases hh : isHeading c
      · rw [if_pos hh, if_pos hh]
        have : charSum rest + rest.length ≤ fuel := by
          rw [charSum_cons] at h
          simp only [List.length_cons] at h
          omega
        rw [ih rest this]
      · rw [if_neg hh, if_neg hh]
        have hmeas : charSum (shrinkPara c rest).2 + (shrinkPara c rest).2.length ≤ fuel := by
          rcases shrinkPara_spec c rest with heq | ⟨i1, i2, i3⟩
          · rw [heq]
            show charSum rest + rest.length ≤ fuel
            rw [charSum_cons] at h
            simp only [List.length_cons] at h
            omega
          · rw [charSum_cons] at h
            simp only [List.length_cons] at h
            omega
        rw [ih _ hmeas]

theorem reflowContent_eval (l : List JStr) :
    reflowContent l = reflowContentF (charSum l + l.length) l :=
  (reflowContentF_eq _ l (le_refl _)).symm

/-- Fuelled structural evaluator for `splitNLRuns`. -/
def splitNLRunsF : Nat → JStr → List JStr
  | 0, _ => [[]]
  | fuel + 1, l =>
    match l with
    | [] => [[]]
    | c :: cs =>
      if c = '\n' then [] :: splitNLRunsF fuel (cs.dropWhile (fun x => x = '\n'))
      else
        match splitNLRunsF fuel cs with
        | [] => [[c]]
        | s :: ss => (c :: s) :: ss

theorem splitNLRunsF_eq (fuel : Nat) (l : JStr) (h : l.length ≤ fuel) :
    splitNLRunsF fuel l = splitNLRuns l := by
  induction fuel generalizing l with
  | zero =>
    have hl : l = [] := List.eq_nil_of_length_eq_zero (Nat.le_zero.mp h)
    subst hl
    rw [splitNLRuns]
    rfl
  | succ fuel ih =>
    cases l with
    | nil => rw [splitNLRuns]; rfl
    | cons c cs =>
      rw [splitNLRuns]
      show (if c = '\n' then [] :: splitNLRunsF fuel (cs.dropWhile (fun x => x = '\n'))
            else _) = _
      by_cases hc : c = '\n'
      · rw [if_pos hc, if_pos hc]
        have : (cs.dropWhile (fun x => x = '\n')).length ≤ fuel := by
          have := (List.dropWhile_sublist (l := cs) (fun x => x = '\n')).length_le
          simp only [List.length_cons] at h
          omega
        rw [ih _ this]
      · rw [if_neg hc, if_neg hc]
        rw [ih cs (by simpa using h)]

theorem splitNLRuns_eval (l : JStr) :
    splitNLRuns l = splitNLRunsF l.length l :=
  (splitNLRunsF_eq _ l (le_refl _)).symm

/-- Fuelled structural evaluator for `groupNonBlank`. -/
def groupNonBlankF : Nat → List JStr → List JStr
  | 0, _ => []
  | fuel + 1, lines =>
    match lines with
    | [] => []
    | l :: ls =>
      if isBlankLine l then groupNonBlankF fuel ls
      else (List.intercalate ['\n'] ((l :: ls).takeWhile (fun x => !isBlankLine x)))
             :: groupNonBlankF fuel ((l :: ls).dropWhile (fun x => !isBlankLine x))

theorem groupNonBlankF_eq (fuel : Nat) (lines : List JStr) (h : lines.length ≤ fuel) :
    groupNonBlankF fuel lines = groupNonBlank lines := by
  induction fuel generalizing lines with
  | zero =>
    have hl : lines = [] := List.eq_nil_of_length_eq_zero (Nat.le_zero.mp h)
    subst hl
    rw [groupNonBlank]
    rfl
  | succ fuel ih =>
    cases lines with
    | nil => rw [groupNonBlank]; rfl
    | cons l ls =>
      rw [groupNonBlank]
      show (if isBlankLine l then groupNonBlankF fuel ls else _) = _
      by_cases hb : isBlankLine l
      · rw [if_pos hb, if_pos hb]
        exact ih ls (by simpa using h)
      · rw [if_neg hb, if_neg hb]
        have hd : ((l :: ls).dropWhile (fun x => !isBlankLine x)).length ≤ fuel := by
          rw [List.dropWhile_cons]
          simp only [hb, Bool.not_false, if_true]
          have := (List.dropWhile_sublist (l := ls) (fun x => !isBlankLine x)).length_le
          simp only [List.length_cons] at h
          omega
        rw [ih _ hd]

theorem groupNonBlank_eval (lines : List JStr) :
    groupNonBlank lines = groupNonBlankF lines.length lines :=
  (groupNonBlankF_eq _ lines (le_refl _)).symm

/-- A 72-character paragraph that begins with a sentence-boundary
character: `。` followed by 35 `a`, `.`, 35 `b`. -/
def c1Bad : JStr := '。' :: (List.replicate 35 'a' ++ '.' :: List.replicate 35 'b')

/-- A 72-character two-sentence paragraph `a…a.b…b.`. -/
def c2LongPara : JStr := List.replicate 35 'a' ++ '.' :: (List.replicate 35 'b' ++ ['.'])

/-- The heading string `## T`. -/
def c2Heading : JStr := ['#', '#', ' ', 'T']

/-- A 100-character paragraph with no sentence-boundary characters. -/
def c4Long : JStr := List.replicate 100 'a'

def c5Text1 : JStr := ['a', '\n', 'b']

def c5Text2 : JStr := [' ', 'a', ' ']

/-- C1: evaluation at the failing input. The spec claims the pipeline
(reflow then paginator) reproduces the concatenated input text character
for character; on the single 72-character paragraph `c1Bad`, whose text
begins with `。`, the sentence-splitting regex drops the leading boundary
character, so the concatenated pipeline output equals the input minus its
first character and is not equal to the input. -/
theorem C1_pipeline_drops_characters :
    ((paginate (reflowContent [c1Bad])).flatten).flatten ≠ [c1Bad].flatten ∧
    ((paginate (reflowContent [c1Bad])).flatten).flatten = c1Bad.tail := by
  simp only [reflowContent_eval]
  exact ⟨by decide, by decide⟩

/-- C2: counterexample. The claim says a heading-marked string is passed
through `reflowContent` unchanged and always appears as the first element
of its page in the paginator output. Both parts fail: on
`[["Hi"], "## T"]` the heading fits the running page and is appended
after other content (second element of the only page); on
`[c2LongPara, "## T"]` the reflow loop prepends the moved tail sentence
onto the heading slot, so the heading string no longer occurs in the
output at all. -/
theorem C2_counterexample :
    isHeading c2Heading = true ∧
    paginate (reflowContent [['H', 'i'], c2Heading]) = [[['H', 'i'], c2Heading]] ∧
    reflowContent [c2LongPara, c2Heading] =
      [List.replicate 35 'a' ++ ['.'], (List.replicate 35 'b' ++ ['.']) ++ c2Heading] ∧
    c2Heading ∉ reflowContent [c2LongPara, c2Heading] := by
  simp only [reflowContent_eval]
  exact ⟨by decide, by decide, by decide, by decide⟩

/-- C4: counterexample to the budget clause of the idempotence claim. The
claim asserts every `reflowContent` output fragment is within
`MAX_CHARS_PER_PARA` (69); the 100-character punctuation-free paragraph
`c4Long` is emitted unchanged, over budget. -/
theorem C4_counterexample :
    reflowContent [c4Long] = [c4Long] ∧ MAX_CHARS_PER_PARA < c4Long.length := by
  simp only [reflowContent_eval]
  exact ⟨by decide, by decide⟩

/-- C5: counterexample. The claim says raw text is split at runs of blank
lines with each paragraph trimmed; the code splits at runs of newline
characters and does not trim. On `"a\nb"` (no blank line) the code yields
two paragraphs while the claimed rule yields one; on `" a "` the code
keeps the untrimmed string while the claimed rule trims it. -/
theorem C5_counterexample :
    rawParagraphs c5Text1 = [['a'], ['b']] ∧
    specSplitParagraphs c5Text1 = [['a', '\n', 'b']] ∧
    rawParagraphs c5Text2 = [[' ', 'a', ' ']] ∧
    specSplitParagraphs c5Text2 = [['a']] ∧
    rawParagraphs c5Text1 ≠ specSplitParagraphs c5Text1 ∧
    rawParagraphs c5Text2 ≠ specSplitParagraphs c5Text2 := by
  simp only [rawParagraphs, specSplitParagraphs, splitNLRuns_eval, groupNonBlank_eval]
  decide

/-- C2 (amended): a buffer slot that starts with `'#'` when it is
processed is emitted by `reflowContent` unchanged and unsplit; in the
paginator a heading is never character-split: when adding it would exceed
the page budget the current page is flushed (if non-empty) and the
heading starts the new page, and when it fits it is appended to the
current page, possibly after other content. -/
theorem C2_amended_heading_behavior :
    (∀ (h : JStr) (rest : List JStr), isHeading h = true →
       reflowContent (h :: rest) = h :: reflowContent rest) ∧
    (∀ (st : PagState) (p : JStr), isHeading p = true →
       MAX_LINES_PER_PAGE < st.used + getLineCost p →
       pagStep st p = ⟨[p], getLineCost p,
         if st.chunk.isEmpty then st.pages else st.pages ++ [st.chunk]⟩) ∧
    (∀ (st : PagState) (p : JStr),
       st.used + getLineCost p ≤ MAX_LINES_PER_PAGE →
       pagStep st p = { st with chunk := st.chunk ++ [p], used := st.used + getLineCost p }) := by
  refine ⟨?_, ?_, ?_⟩
  · intro h rest hh
    rw [reflowContent]
    show (if isHeading h then h :: reflowContent rest else _) = _
    rw [if_pos hh]
  · intro st p hh hov
    simp only [pagStep]
    rw [if_neg (by omega), if_pos hh]
  · intro st p hfit
    simp only [pagStep]
    rw [if_pos hfit]

/-- C2 amended, witnessed at a concrete heading and state: the heading
`## T` is passed through reflow unchanged, and appended to a fitting
page. -/
theorem C2_amended_witness :
    reflowContent [c2Heading] = [c2Heading] ∧
    pagStep ⟨[['H', 'i']], 2, []⟩ c2Heading =
      { chunk := [['H', 'i'], c2Heading], used := 5, pages := [] } := by
  constructor
  · have h1 := C2_amended_heading_behavior.1 c2Heading [] (by decide)
    rw [h1, reflowContent]
  · have h2 := C2_amended_heading_behavior.2.2 ⟨[['H', 'i']], 2, []⟩ c2Heading (by decide)
    rw [h2]
    decide

/-- C6: the character-split branch of the paginator. For a non-heading
paragraph that overflows the page: if at most one budget line remains the
chunk is flushed whole and the paragraph starts the next page unsplit
(the check precedes any character-level split); otherwise the paragraph
is cut at character offset `(remainingBudget - 1) * CHARS_PER_LINE`, the
prefix joins the flushed page, and the suffix starts the next chunk with
running total `getLineCost` of the suffix. -/
theorem C6_split_branch :
    ∀ (st : PagState) (p : JStr), isHeading p = false →
      MAX_LINES_PER_PAGE < st.used + getLineCost p →
      ((MAX_LINES_PER_PAGE - st.used ≤ 1 →
         pagStep st p = ⟨[p], getLineCost p, st.pages ++ [st.chunk]⟩) ∧
       (2 ≤ MAX_LINES_PER_PAGE - st.used →
         pagStep st p =
           ⟨[p.drop ((MAX_LINES_PER_PAGE - st.used - 1) * CHARS_PER_LINE)],
            getLineCost (p.drop ((MAX_LINES_PER_PAGE - st.used - 1) * CHARS_PER_LINE)),
            st.pages ++ [st.chunk ++ [p.take ((MAX_LINES_PER_PAGE - st.used - 1) * CHARS_PER_LINE)]]⟩)) := by
  intro st p hp hov
  constructor
  · intro h1
    simp only [pagStep]
    rw [if_neg (by omega), if_neg (by simp [hp]), if_pos h1]
  · intro h2
    simp only [pagStep]
    rw [if_neg (by omega), if_neg (by simp [hp]), if_neg (by omega)]

def c6Para : JStr := List.replicate 400 'x'

/-- C6, witnessed at a 400-character paragraph (cost 20) against a page
with 18 lines used (flush-whole branch) and a page with 2 lines used
(character-split at offset (19 - 2 - 1) * 22 = 352). -/
theorem C6_witness :
    pagStep ⟨[['a']], 18, []⟩ c6Para = ⟨[c6Para], getLineCost c6Para, [] ++ [[['a']]]⟩ ∧
    pagStep ⟨[['a']], 2, []⟩ c6Para =
      ⟨[c6Para.drop 352], getLineCost (c6Para.drop 352), [] ++ [[['a']] ++ [c6Para.take 352]]⟩ :=
  ⟨(C6_split_branch ⟨[['a']], 18, []⟩ c6Para (by decide) (by decide)).1 (by decide),
   (C6_split_branch ⟨[['a']], 2, []⟩ c6Para (by decide) (by decide)).2 (by decide)⟩

/-- C7: the tail-move step of the reflow loop. While a slot exceeds
`MAX_CHARS_PER_PARA` and has at least two sentence spans, the last span
is removed and prepended onto the next buffer slot (`prependToNext`
creates a new trailing slot when none follows), the current slot becoming
the earlier spans concatenated; a slot with fewer than two spans leaves
the loop at once and is emitted as-is, over budget, by `reflowContent`. -/
theorem C7_tail_move :
    ∀ (c : JStr) (rest : List JStr),
      (MAX_CHARS_PER_PARA < c.length → 2 ≤ (splitIntoSentences c).length →
        shrinkPara c rest =
          shrinkPara ((splitIntoSentences c).dropLast.flatten)
            (prependToNext ((splitIntoSentences c).getLastD []) rest)) ∧
      ((splitIntoSentences c).length ≤ 1 → shrinkPara c rest = (c, rest)) ∧
      (isHeading c = false → (splitIntoSentences c).length ≤ 1 →
        reflowContent (c :: rest) = c :: reflowContent rest) ∧
      (∀ last : JStr, prependToNext last [] = [last]) ∧
      (∀ (last r : JStr) (rs : List JStr), prependToNext last (r :: rs) = (last ++ r) :: rs) := by
  intro c rest
  have hstep : ∀ (r : List JStr), (splitIntoSentences c).length ≤ 1 → shrinkPara c r = (c, r) := by
    intro r h1
    rw [shrinkPara]
    by_cases hl : MAX_CHARS_PER_PARA < c.length
    · rw [if_pos hl, if_neg (by omega)]
    · rw [if_neg hl]
  refine ⟨?_, hstep rest, ?_, fun _ => rfl, fun _ _ _ => rfl⟩
  · intro hl h2
    rw [shrinkPara, if_pos hl, if_pos h2]
  · intro hh h1
    rw [reflowContent]
    show (if isHeading c then _ else (shrinkPara c rest).1 :: reflowContent (shrinkPara c rest).2) = _
    rw [if_neg (by simp [hh]), hstep rest h1]

/-- C7, witnessed at the 72-character two-sentence paragraph `c2LongPara`
(one tail-move into an empty tail) and at the unsplittable `c4Long`. -/
theorem C7_witness :
    shrinkPara c2LongPara [] =
      shrinkPara ((splitIntoSentences c2LongPara).dropLast.flatten)
        (prependToNext ((splitIntoSentences c2LongPara).getLastD []) []) ∧
    reflowContent [c4Long] = c4Long :: reflowContent [] := by
  constructor
  · exact (C7_tail_move c2LongPara []).1 (by decide)
      (by rw [← splitIntoSentencesF_eq]; decide)
  · exact (C7_tail_move c4Long []).2.2.1 (by decide)
      (by rw [← splitIntoSentencesF_eq]; decide)

theorem pagStep_chunk_ne (st : PagState) (p : JStr) : (pagStep st p).chunk ≠ [] := by
  simp only [pagStep]
  by_cases h1 : st.used + getLineCost p ≤ MAX_LINES_PER_PAGE
  · rw [if_pos h1]; simp
  · rw [if_neg h1]
    by_cases h2 : isHeading p = true
    · rw [if_pos h2]; simp
    · rw [if_neg h2]
      by_cases h3 : MAX_LINES_PER_PAGE - st.used ≤ 1
      · rw [if_pos h3]; simp
      · rw [if_neg h3]; simp

theorem foldl_pagStep_chunk_ne :
    ∀ (l : List JStr) (st : PagState), st.chunk ≠ [] → (l.foldl pagStep st).chunk ≠ [] := by
  intro l
  induction l with
  | nil => intro st h; exact h
  | cons p t ih =>
    intro st _
    rw [List.foldl_cons]
    exact ih _ (pagStep_chunk_ne st p)

theorem splitIntoSentences_no_boundary (c : JStr) (hne : c ≠ [])
    (hnb : ∀ x ∈ c, isBoundary x = false) : splitIntoSentences c = [c] := by
  cases c with
  | nil => exact absurd rfl hne
  | cons a t =>
    have hdrop : (a :: t).dropWhile (fun x => !isBoundary x) = [] := by
      rw [List.dropWhile_eq_nil_iff]
      intro x hx
      simp [hnb x hx]
    have htake : (a :: t).takeWhile (fun x => !isBoundary x) = a :: t := by
      have := List.takeWhile_append_dropWhile (fun x => !isBoundary x) (l := a :: t)
      rw [hdrop, List.append_nil] at this
      exact this
    have hcore : sentencesCore (a :: t) = [a :: t] := by
      rw [sentencesCore]
      have hba : ¬isBoundary a = true := by simp [hnb a (by simp)]
      rw [dif_neg hba]
      unfold sentenceAt afterSentence
      rw [hdrop, htake]
      show ((a :: t) ++ [].takeWhile isBoundary) :: sentencesCore ([].dropWhile isBoundary) = _
      rw [List.takeWhile_nil, List.dropWhile_nil, List.append_nil, sentencesCore]
    unfold splitIntoSentences
    rw [hcore]

/-- C9: totality and termination of the embedded routines. The reflow
while-loop measure strictly decreases at every iteration (the remaining
earlier spans are strictly shorter than the slot being split); the
routines are defined (total) on the empty input; a non-empty string with
no sentence-boundary characters is returned whole as a single sentence;
and the paginator emits no page exactly on empty input and at least one
page otherwise. Both embedded routines are total Lean functions, so no
input raises an exception. -/
theorem C9_termination_totality :
    (∀ c : JStr, 2 ≤ (splitIntoSentences c).length →
       ((splitIntoSentences c).dropLast.flatten).length < c.length) ∧
    reflowContent [] = [] ∧
    paginate [] = [] ∧
    (∀ c : JStr, c ≠ [] → (∀ x ∈ c, isBoundary x = false) →
       splitIntoSentences c = [c]) ∧
    (∀ content : List JStr, paginate content = [] ↔ content = []) := by
  refine ⟨remainder_flatten_lt, by rw [reflowContent], by decide,
    splitIntoSentences_no_boundary, ?_⟩
  intro content
  constructor
  · intro hpag
    by_contra hne
    cases content with
    | nil => exact hne rfl
    | cons c t =>
      unfold paginate at hpag
      have hchunk : ((c :: t).foldl pagStep pagInit).chunk ≠ [] := by
        rw [List.foldl_cons]
        exact foldl_pagStep_chunk_ne t _ (pagStep_chunk_ne pagInit c)
      unfold pagFinish at hpag
      rw [if_neg (by simpa [List.isEmpty_iff] using hchunk)] at hpag
      exact List.append_ne_nil_of_right_ne_nil _ (by simp) hpag
  · intro h
    subst h
    decide

/-- C9, witnessed: strict shortening at the two-sentence 72-character
paragraph, and whole-return of a punctuation-free string. -/
theorem C9_witness :
    ((splitIntoSentences c2LongPara).dropLast.flatten).length < c2LongPara.length ∧
    splitIntoSentences ['x'] = [['x']] :=
  ⟨C9_termination_totality.1 c2LongPara (by rw [← splitIntoSentencesF_eq]; decide),
   C9_termination_totality.2.2.2.1 ['x'] (by decide) (by decide)⟩

/-- Estimated line cost of a page: the sum of its paragraphs' costs. -/
def pageCost (page : List JStr) : Nat := (page.map getLineCost).sum

theorem pageCost_append (a : List JStr) (p : JStr) :
    pageCost (a ++ [p]) = pageCost a + getLineCost p := by
  simp [pageCost]

theorem pageCost_single (p : JStr) : pageCost [p] = getLineCost p := by
  simp [pageCost]

/-- A page respects the budget, or is a sole over-budget paragraph. -/
def GoodPage (page : List JStr) : Prop :=
  pageCost page ≤ MAX_LINES_PER_PAGE ∨
    ∃ p, page = [p] ∧ MAX_LINES_PER_PAGE < getLineCost p

theorem GoodPage_single (p : JStr) : GoodPage [p] := by
  by_cases h : getLineCost p ≤ MAX_LINES_PER_PAGE
  · left; rw [pageCost_single]; exact h
  · right; exact ⟨p, rfl, by omega⟩

/-- Loop invariant of the paginator: the running total equals the cost of
the open chunk, and the open chunk and every flushed page are good. -/
def PagInv (st : PagState) : Prop :=
  st.used = pageCost st.chunk ∧ GoodPage st.chunk ∧ ∀ pg ∈ st.pages, GoodPage pg

theorem pagInit_inv : PagInv pagInit := by
  refine ⟨by simp [pagInit, pageCost], Or.inl (by simp [pagInit, pageCost]), ?_⟩
  intro pg hpg
  simp [pagInit] at hpg

theorem not_heading_cases (p : JStr) (hp : isHeading p = false) :
    p = [] ∨ ∃ c t, p = c :: t ∧ ('#' == c) = false := by
  cases p with
  | nil => exact Or.inl rfl
  | cons c t =>
    right
    refine ⟨c, t, rfl, ?_⟩
    simpa [isHeading, hasPrefixCL] using hp

theorem take_not_heading (p : JStr) (hp : isHeading p = false) (n : Nat) :
    p.take n = [] ∨ ∃ c t, p.take n = c :: t ∧ ('#' == c) = false := by
  rcases not_heading_cases p hp with rfl | ⟨c, t, rfl, hc⟩
  · left; simp
  · cases n with
    | zero => exact Or.inl rfl
    | succ m => exact Or.inr ⟨c, t.take m, by simp, hc⟩

theorem getLineCost_eq_of_not_hash (q : JStr)
    (hq : q = [] ∨ ∃ c t, q = c :: t ∧ ('#' == c) = false) :
    getLineCost q = if q.all Char.isWhitespace then 0
      else (q.length + (CHARS_PER_LINE - 1)) / CHARS_PER_LINE + 1 := by
  rcases hq with rfl | ⟨c, t, rfl, hc⟩
  · simp [getLineCost, hasPrefixCL]
  · simp [getLineCost, hasPrefixCL, hc]

theorem getLineCost_take_le (p : JStr) (hp : isHeading p = false) (n : Nat) :
    getLineCost (p.take (n * CHARS_PER_LINE)) ≤ n + 1 := by
  rw [getLineCost_eq_of_not_hash _ (take_not_heading p hp _)]
  by_cases hws : (p.take (n * CHARS_PER_LINE)).all Char.isWhitespace
  · rw [if_pos hws]; omega
  · rw [if_neg hws]
    have hlen : (p.take (n * CHARS_PER_LINE)).length ≤ n * CHARS_PER_LINE :=
      List.length_take_le _ _
    simp only [CHARS_PER_LINE] at *
    omega

theorem pagStep_inv (st : PagState) (p : JStr) (h : PagInv st) :
    PagInv (pagStep st p) := by
  obtain ⟨hused, hchunk, hpages⟩ := h
  simp only [pagStep]
  by_cases h1 : st.used + getLineCost p ≤ MAX_LINES_PER_PAGE
  · rw [if_pos h1]
    refine ⟨?_, ?_, hpages⟩
    · show st.used + getLineCost p = pageCost (st.chunk ++ [p])
      rw [pageCost_append, hused]
    · left
      show pageCost (st.chunk ++ [p]) ≤ MAX_LINES_PER_PAGE
      rw [pageCost_append]
      omega
  · rw [if_neg h1]
    by_cases h2 : isHeading p = true
    · rw [if_pos h2]
      refine ⟨(pageCost_single p).symm, GoodPage_single p, ?_⟩
      intro pg hpg
      by_cases hemp : st.chunk.isEmpty
      · rw [if_pos hemp] at hpg
        exact hpages pg hpg
      · rw [if_neg hemp] at hpg
        rcases List.mem_append.mp hpg with hin | hin
        · exact hpages pg hin
        · rw [List.mem_singleton.mp hin]
          exact hchunk
    · rw [if_neg h2]
      by_cases h3 : MAX_LINES_PER_PAGE - st.used ≤ 1
      · rw [if_pos h3]
        refine ⟨(pageCost_single p).symm, GoodPage_single p, ?_⟩
        intro pg hpg
        rcases List.mem_append.mp hpg with hin | hin
        · exact hpages pg hin
        · rw [List.mem_singleton.mp hin]
          exact hchunk
      · rw [if_neg h3]
        refine ⟨(pageCost_single _).symm, GoodPage_single _, ?_⟩
        intro pg hpg
        rcases List.mem_append.mp hpg with hin | hin
        · exact hpages pg hin
        · rw [List.mem_singleton.mp hin]
          left
          rw [pageCost_append]
          have hcost := getLineCost_take_le p (by simpa using h2) (MAX_LINES_PER_PAGE - st.used - 1)
          omega

theorem foldl_pagStep_inv :
    ∀ (l : List JStr) (st : PagState), PagInv st → PagInv (l.foldl pagStep st) := by
  intro l
  induction l with
  | nil => intro st h; exact h
  | cons p t ih =>
    intro st h
    rw [List.foldl_cons]
    exact ih _ (pagStep_inv st p h)

/-- C3: budget respect. Every page the paginator emits has total line
cost at most `MAX_LINES_PER_PAGE`, or consists of exactly one paragraph
whose own cost exceeds the budget; that paragraph is the sole occupant of
its page (it appears in the output rather than being dropped). -/
theorem C3_budget_respect :
    ∀ (content : List JStr) (page : List JStr), page ∈ paginate content →
      pageCost page ≤ MAX_LINES_PER_PAGE ∨
        ∃ p, page = [p] ∧ MAX_LINES_PER_PAGE < getLineCost p := by
  intro content page hmem
  have hinv := foldl_pagStep_inv content pagInit pagInit_inv
  unfold paginate pagFinish at hmem
  by_cases hemp : (content.foldl pagStep pagInit).chunk.isEmpty
  · rw [if_pos hemp] at hmem
    exact hinv.2.2 page hmem
  · rw [if_neg hemp] at hmem
    rcases List.mem_append.mp hmem with hin | hin
    · exact hinv.2.2 page hin
    · rw [List.mem_singleton.mp hin]
      exact hinv.2.1

/-- C3, witnessed: the page holding the 396-character prefix of the
400-character paragraph is within budget. -/
theorem C3_witness :
    pageCost [c6Para.take 396] ≤ MAX_LINES_PER_PAGE ∨
      ∃ p, [c6Para.take 396] = [p] ∧ MAX_LINES_PER_PAGE < getLineCost p :=
  C3_budget_respect [c6Para] [c6Para.take 396] (by decide)

theorem shrinkPara_settled (current : JStr) (rest : List JStr) :
    (shrinkPara current rest).1.length ≤ MAX_CHARS_PER_PARA ∨
      (splitIntoSentences (shrinkPara current rest).1).length ≤ 1 := by
  induction current, rest using shrinkPara.induct with
  | case1 current rest hlen h2 ih =>
    rw [shrinkPara, if_pos hlen, if_pos h2]
    exact ih
  | case2 current rest hlen h2 =>
    rw [shrinkPara, if_pos hlen, if_neg h2]
    show current.length ≤ MAX_CHARS_PER_PARA ∨ (splitIntoSentences current).length ≤ 1
    right
    omega
  | case3 current rest hlen =>
    rw [shrinkPara, if_neg hlen]
    show current.length ≤ MAX_CHARS_PER_PARA ∨ (splitIntoSentences current).length ≤ 1
    left
    omega

/-- A `reflowContent` output fragment is a heading, within budget, or has
fewer than two sentence spans. -/
def settledFrag (f : JStr) : Prop :=
  isHeading f = true ∨ f.length ≤ MAX_CHARS_PER_PARA ∨
    (splitIntoSentences f).length ≤ 1

theorem reflowContent_settled (l : List JStr) :
    ∀ f ∈ reflowContent l, settledFrag f := by
  induction l using reflowContent.induct with
  | case1 =>
    intro f hf
    rw [reflowContent] at hf
    simp at hf
  | case2 c rest hh ih =>
    intro f hf
    rw [reflowContent] at hf
    rw [if_pos hh] at hf
    rcases List.mem_cons.mp hf with h1 | h1
    · subst h1
      exact Or.inl hh
    · exact ih f h1
  | case3 c rest hh ih =>
    intro f hf
    rw [reflowContent] at hf
    rw [if_neg hh] at hf
    rcases List.mem_cons.mp hf with h1 | h1
    · subst h1
      exact Or.inr (shrinkPara_settled c rest)
    · exact ih f h1

theorem shrinkPara_noop (c : JStr) (rest : List JStr)
    (h : c.length ≤ MAX_CHARS_PER_PARA ∨ (splitIntoSentences c).length ≤ 1) :
    shrinkPara c rest = (c, rest) := by
  rw [shrinkPara]
  by_cases hl : MAX_CHARS_PER_PARA < c.length
  · rw [if_pos hl, if_neg (by omega)]
  · rw [if_neg hl]

theorem reflowContent_noop (l : List JStr) (h : ∀ f ∈ l, settledFrag f) :
    reflowContent l = l := by
  induction l with
  | nil => rw [reflowContent]
  | cons c rest ih =>
    rw [reflowContent]
    show (if isHeading c then c :: reflowContent rest
          else (shrinkPara c rest).1 :: reflowContent (shrinkPara c rest).2) = c :: rest
    by_cases hh : isHeading c = true
    · rw [if_pos hh, ih (fun f hf => h f (List.mem_cons_of_mem c hf))]
    · rw [if_neg hh]
      have hset : c.length ≤ MAX_CHARS_PER_PARA ∨ (splitIntoSentences c).length ≤ 1 := by
        rcases h c (by simp) with h1 | h1 | h1
        · exact absurd h1 hh
        · exact Or.inl h1
        · exact Or.inr h1
      rw [shrinkPara_noop c rest hset]
      show c :: reflowContent rest = c :: rest
      rw [ih (fun f hf => h f (List.mem_cons_of_mem c hf))]

/-- C4 (amended): `reflowContent` is idempotent — re-running it on its own
output is a no-op — and every output fragment is within
`MAX_CHARS_PER_PARA` except heading-marked fragments (passed through
untouched) and fragments with fewer than two sentence spans (which cannot
be subdivided and may exceed the budget). -/
theorem C4_amended_idempotent :
    ∀ (xs : List JStr),
      reflowContent (reflowContent xs) = reflowContent xs ∧
      ∀ f ∈ reflowContent xs,
        isHeading f = true ∨ f.length ≤ MAX_CHARS_PER_PARA ∨
          (splitIntoSentences f).length ≤ 1 := by
  intro xs
  exact ⟨reflowContent_noop (reflowContent xs) (reflowContent_settled xs),
         reflowContent_settled xs⟩

/-- C4, witnessed: idempotence at the punctuation-free 100-character
input, and its fragment classification (fewer than two sentence spans). -/
theorem C4_witness :
    reflowContent (reflowContent [c4Long]) = reflowContent [c4Long] ∧
    (isHeading c4Long = true ∨ c4Long.length ≤ MAX_CHARS_PER_PARA ∨
      (splitIntoSentences c4Long).length ≤ 1) :=
  ⟨(C4_amended_idempotent [c4Long]).1,
   (C4_amended_idempotent [c4Long]).2 c4Long
     (by simp only [reflowContent_eval]; decide)⟩

theorem mapWithIndex_length (f : Nat → Slide → Slide) :
    ∀ (l : List Slide) (i : Nat), (mapWithIndex f i l).length = l.length := by
  intro l
  induction l with
  | nil => intro i; rfl
  | cons s ss ih => intro i; simp [mapWithIndex, ih]

theorem mapWithIndex_getElem? (f : Nat → Slide → Slide) :
    ∀ (l : List Slide) (i k : Nat),
      (mapWithIndex f i l)[k]? = (l[k]?).map (f (i + k)) := by
  intro l
  induction l with
  | nil => intro i k; simp [mapWithIndex]
  | cons a as ih =>
    intro i k
    cases k with
    | zero => simp [mapWithIndex]
    | succ k' =>
      show (f i a :: mapWithIndex f (i + 1) as)[k' + 1]? =
        ((a :: as)[k' + 1]?).map (f (i + (k' + 1)))
      rw [List.getElem?_cons_succ, List.getElem?_cons_succ, ih (i + 1) k']
      have harith : i + 1 + k' = i + (k' + 1) := by omega
      rw [harith]

theorem mapWithIndex_map_pageNumber (f : Nat → Slide → Slide)
    (hf : ∀ i s, (f i s).pageNumber = some (i + 1)) :
    ∀ (l : List Slide) (i : Nat),
      (mapWithIndex f i l).map (fun s => s.pageNumber) =
        (List.range' (i + 1) l.length).map some := by
  intro l
  induction l with
  | nil => intro i; rfl
  | cons s ss ih =>
    intro i
    show (f i s).pageNumber :: (mapWithIndex f (i + 1) ss).map (fun s => s.pageNumber) = _
    rw [hf i s, List.length_cons, List.range'_succ, List.map_cons, ih (i + 1)]

theorem mapWithIndex_map_totalPages (f : Nat → Slide → Slide) (v : Option Nat)
    (hf : ∀ i s, (f i s).totalPages = v) :
    ∀ (l : List Slide) (i : Nat),
      (mapWithIndex f i l).map (fun s => s.totalPages) =
        List.replicate l.length v := by
  intro l
  induction l with
  | nil => intro i; rfl
  | cons s ss ih =>
    intro i
    show (f i s).totalPages :: (mapWithIndex f (i + 1) ss).map (fun s => s.totalPages) = _
    rw [hf i s, List.length_cons, List.replicate_succ, ih (i + 1)]

/-- C8: the numbering contract of the finishing pass. Over the final
flattened slide sequence of length N, the `pageNumber` values are exactly
1..N in output order (cover included) and every slide's `totalPages`
equals N. -/
theorem C8_numbering_contract :
    ∀ (mkId : Nat → JStr) (slides : List Slide),
      (finishingPass mkId slides).length = slides.length ∧
      (finishingPass mkId slides).map (fun s => s.pageNumber) =
        (List.range' 1 slides.length).map some ∧
      (finishingPass mkId slides).map (fun s => s.totalPages) =
        List.replicate slides.length (some slides.length) := by
  intro mkId slides
  unfold finishingPass
  refine ⟨mapWithIndex_length _ slides 0, ?_, ?_⟩
  · exact mapWithIndex_map_pageNumber _ (fun i s => rfl) slides 0
  · exact mapWithIndex_map_totalPages _ (some slides.length) (fun i s => rfl) slides 0

/-- The number of non-cover slides, as computed by `reindexSlides`. -/
def countNonCover (l : List Slide) : Nat :=
  (l.filter (fun s => s.type != SlideType.cover)).length

theorem reindexSlides_eq (slides : List Slide) :
    reindexSlides slides = reindexGo (countNonCover slides) 0 slides := rfl

theorem countNonCover_cons (a : Slide) (l : List Slide) :
    countNonCover (a :: l) =
      (if a.type = SlideType.cover then 0 else 1) + countNonCover l := by
  by_cases h : a.type = SlideType.cover
  · simp [countNonCover, List.filter_cons, h]
  · simp [countNonCover, List.filter_cons, h]
    omega

theorem reindexGo_length (m : Nat) :
    ∀ (l : List Slide) (idx : Nat), (reindexGo m idx l).length = l.length := by
  intro l
  induction l with
  | nil => intro idx; rfl
  | cons a as ih =>
    intro idx
    unfold reindexGo
    by_cases hc : a.type == SlideType.cover
    · rw [if_pos hc]; simp [ih]
    · rw [if_neg hc]; simp [ih]

theorem reindexGo_getElem? (m : Nat) :
    ∀ (l : List Slide) (idx k : Nat) (s : Slide), l[k]? = some s →
      (reindexGo m idx l)[k]? = some (
        if s.type = SlideType.cover then { s with totalPages := some m }
        else { s with pageNumber := some (idx + countNonCover (l.take (k + 1))),
                      totalPages := some m }) := by
  intro l
  induction l with
  | nil => intro idx k s hs; simp at hs
  | cons a as ih =>
    intro idx k s hs
    cases k with
    | zero =>
      rw [List.getElem?_cons_zero] at hs
      have hsa : a = s := by injection hs
      subst hsa
      unfold reindexGo
      by_cases hc : a.type == SlideType.cover
      · have hc' : a.type = SlideType.cover := by simpa using hc
        rw [if_pos hc, List.getElem?_cons_zero, if_pos hc']
      · have hc' : ¬a.type = SlideType.cover := by simpa using hc
        rw [if_neg hc, List.getElem?_cons_zero, if_neg hc']
        have hcount : countNonCover ((a :: as).take 1) = 1 := by
          simp [countNonCover, List.filter_cons, hc']
        rw [hcount]
    | succ k' =>
      rw [List.getElem?_cons_succ] at hs
      unfold reindexGo
      by_cases hc : a.type == SlideType.cover
      · have hc' : a.type = SlideType.cover := by simpa using hc
        rw [if_pos hc, List.getElem?_cons_succ, ih idx k' s hs]
        rw [List.take_succ_cons, countNonCover_cons, if_pos hc', Nat.zero_add]
      · have hc' : ¬a.type = SlideType.cover := by simpa using hc
        rw [if_neg hc, List.getElem?_cons_succ, ih (idx + 1) k' s hs]
        rw [List.take_succ_cons, countNonCover_cons, if_neg hc']
        have harith : ∀ x : Nat, idx + 1 + x = idx + (1 + x) := by omega
        rw [harith]

/-- C10: edit-path renumbering versus the finishing pass. `reindexSlides`
sets `totalPages` on every slide to the non-cover slide count M; a cover
slide keeps its `pageNumber` and all other fields, while a non-cover
slide at position k gets `pageNumber` equal to its 1-based rank among the
non-cover slides, all other fields unchanged. The finishing pass instead
numbers every slide (cover included) by its position and sets
`totalPages` to the full list length. -/
theorem C10_reindex_vs_finishing :
    ∀ (slides : List Slide),
      (reindexSlides slides).length = slides.length ∧
      (∀ (k : Nat) (s : Slide), slides[k]? = some s →
        (reindexSlides slides)[k]? = some (
          if s.type = SlideType.cover then
            { s with totalPages := some (countNonCover slides) }
          else
            { s with pageNumber := some (countNonCover (slides.take (k + 1))),
                     totalPages := some (countNonCover slides) })) ∧
      (∀ (mkId : Nat → JStr) (k : Nat) (s : Slide),
        (finishingPass mkId slides)[k]? = some s →
          s.pageNumber = some (k + 1) ∧ s.totalPages = some slides.length) := by
  intro slides
  refine ⟨?_, ?_, ?_⟩
  · rw [reindexSlides_eq]
    exact reindexGo_length _ slides 0
  · intro k s hs
    rw [reindexSlides_eq]
    have h := reindexGo_getElem? (countNonCover slides) slides 0 k s hs
    rw [h]
    by_cases hc : s.type = SlideType.cover
    · rw [if_pos hc, if_pos hc]
    · rw [if_neg hc, if_neg hc]
      rw [Nat.zero_add]
  · intro mkId k s hs
    unfold finishingPass at hs
    rw [mapWithIndex_getElem?] at hs
    rcases Option.map_eq_some'.mp hs with ⟨t, _, hft⟩
    subst hft
    refine ⟨?_, rfl⟩
    show some (0 + k + 1) = some (k + 1)
    rw [Nat.zero_add]

def sampleCover : Slide :=
  ⟨[], SlideType.cover, [], [['q']], [], [], none, none, none, none, none, none⟩

def sampleContent : Slide :=
  ⟨[], SlideType.content, [], [['a']], [], [], none, none, none, none, none, none⟩

def c10Finished : Slide :=
  { sampleCover with
    id := []
    pageNumber := some 1
    totalPages := some 2
    category := defaultCategory
    backgroundImage := some defaultBackground
    tags := some defaultTags
    titleFontSize := some 48
    coverStyle := some ("classic".toList) }

/-- C10, witnessed on a cover slide followed by one content slide: the
edit-path renumbering gives the content slide page 1 of 1 and leaves the
cover unnumbered, while the finishing pass makes the cover page 1 of 2. -/
theorem C10_witness :
    (reindexSlides [sampleCover, sampleContent]).length = 2 ∧
    (reindexSlides [sampleCover, sampleContent])[1]? =
      some { sampleContent with pageNumber := some 1, totalPages := some 1 } ∧
    c10Finished.pageNumber = some 1 ∧ c10Finished.totalPages = some 2 := by
  have h := C10_reindex_vs_finishing [sampleCover, sampleContent]
  refine ⟨h.1, ?_, ?_⟩
  · have h2 := h.2.1 1 sampleContent (by decide)
    rw [h2]
    decide
  · exact h.2.2 (fun _ => []) 0 c10Finished (by decide)

/-- A string containing at least one non-whitespace character (the
survivors of the `line.trim().length > 0` filter). -/
def hasTextContent (s : JStr) : Bool := s.any (fun c => !c.isWhitespace)

theorem dropWhile_forall_iff (p : Char → Bool) (l : JStr) :
    (∀ x ∈ l.dropWhile p, p x = true) ↔ (∀ x ∈ l, p x = true) := by
  constructor
  · intro h x hx
    have hsplit := List.takeWhile_append_dropWhile p (l := l)
    rw [← hsplit] at hx
    rcases List.mem_append.mp hx with hin | hin
    · exact List.mem_takeWhile_imp hin
    · exact h x hin
  · intro h x hx
    exact h x ((List.dropWhile_sublist p).subset hx)

theorem jsTrim_eq_nil_iff (s : JStr) :
    jsTrim s = [] ↔ ∀ x ∈ s, x.isWhitespace = true := by
  unfold jsTrim
  rw [List.reverse_eq_nil_iff, List.dropWhile_eq_nil_iff]
  constructor
  · intro h
    rw [← dropWhile_forall_iff Char.isWhitespace s]
    intro x hx
    exact h x (List.mem_reverse.mpr hx)
  · intro h x hx
    exact (dropWhile_forall_iff Char.isWhitespace s).mpr h x (List.mem_reverse.mp hx)

theorem rawFilterPred (s : JStr) :
    (decide (0 < (jsTrim s).length)) = hasTextContent s := by
  by_cases hall : ∀ x ∈ s, x.isWhitespace = true
  · have h0 : jsTrim s = [] := (jsTrim_eq_nil_iff s).mpr hall
    rw [h0]
    symm
    show s.any (fun c => !c.isWhitespace) = false
    rw [List.any_eq_false]
    intro x hx
    simp [hall x hx]
  · have hne : jsTrim s ≠ [] := fun hcontr => hall ((jsTrim_eq_nil_iff s).mp hcontr)
    have hpos : 0 < (jsTrim s).length := List.length_pos.mpr hne
    rw [decide_eq_true hpos]
    symm
    show s.any (fun c => !c.isWhitespace) = true
    rw [List.any_eq_true]
    push_neg at hall
    rcases hall with ⟨x, hx, hws⟩
    exact ⟨x, hx, by simp [Bool.eq_false_iff.mpr hws]⟩

theorem splitOnNL_ne_nil (l : JStr) : splitOnNL l ≠ [] := by
  cases l with
  | nil => simp [splitOnNL]
  | cons c cs =>
    unfold splitOnNL
    by_cases hc : c = '\n'
    · simp [hc]
    · rw [if_neg hc]
      cases h2 : splitOnNL cs <;> simp

theorem splitNLRuns_ne_nil (l : JStr) : splitNLRuns l ≠ [] := by
  cases l with
  | nil => rw [splitNLRuns]; simp
  | cons c cs =>
    rw [splitNLRuns]
    by_cases hc : c = '\n'
    · simp [hc]
    · rw [if_neg hc]
      cases h2 : splitNLRuns cs <;> simp

theorem splitOnNL_cons_newline (t : JStr) : splitOnNL ('\n' :: t) = [] :: splitOnNL t := by
  simp [splitOnNL]

theorem dropNL_filter (cs : JStr) :
    ((splitOnNL (cs.dropWhile (fun x => x = '\n'))).filter hasTextContent) =
      ((splitOnNL cs).filter hasTextContent) := by
  induction cs with
  | nil => rfl
  | cons c t ih =>
    by_cases hc : c = '\n'
    · subst hc
      have h1 : ('\n' :: t).dropWhile (fun x => x = '\n') =
          t.dropWhile (fun x => x = '\n') := by
        rw [List.dropWhile_cons]
        simp
      rw [h1, ih, splitOnNL_cons_newline, List.filter_cons]
      rw [if_neg (by simp [hasTextContent])]
    · have h1 : (c :: t).dropWhile (fun x => x = '\n') = c :: t := by
        rw [List.dropWhile_cons]
        simp [hc]
      rw [h1]

theorem filter_eq_of_heads_tails (l : JStr)
    (hE : (splitNLRuns l).head? = (splitOnNL l).head? ∧
      ((splitNLRuns l).tail).filter hasTextContent =
        ((splitOnNL l).tail).filter hasTextContent) :
    (splitNLRuns l).filter hasTextContent = (splitOnNL l).filter hasTextContent := by
  obtain ⟨h1, h2⟩ := hE
  cases ha : splitNLRuns l with
  | nil => exact absurd ha (splitNLRuns_ne_nil l)
  | cons x xs =>
    cases hb : splitOnNL l with
    | nil => exact absurd hb (splitOnNL_ne_nil l)
    | cons y ys =>
      rw [ha, hb] at h1 h2
      simp only [List.head?_cons, Option.some.injEq] at h1
      simp only [List.tail_cons] at h2
      rw [List.filter_cons, List.filter_cons, h1, h2]

theorem splitNLRuns_heads_tails (l : JStr) :
    (splitNLRuns l).head? = (splitOnNL l).head? ∧
    ((splitNLRuns l).tail).filter hasTextContent =
      ((splitOnNL l).tail).filter hasTextContent := by
  induction l using splitNLRuns.induct with
  | case1 =>
    rw [splitNLRuns]
    exact ⟨rfl, rfl⟩
  | case2 cs ih =>
    rw [splitNLRuns, if_pos rfl, splitOnNL_cons_newline]
    refine ⟨rfl, ?_⟩
    simp only [List.tail_cons]
    rw [filter_eq_of_heads_tails _ ih, dropNL_filter cs]
  | case3 c cs hc hnil ih =>
    exact absurd hnil (splitNLRuns_ne_nil cs)
  | case4 c cs hc s ss hss ih =>
    obtain ⟨ih1, ih2⟩ := ih
    rw [splitNLRuns, if_neg hc, hss]
    cases hb : splitOnNL cs with
    | nil => exact absurd hb (splitOnNL_ne_nil cs)
    | cons s2 ss2 =>
      rw [hss, hb] at ih1 ih2
      simp only [List.head?_cons, Option.some.injEq] at ih1
      simp only [List.tail_cons] at ih2
      have hOn : splitOnNL (c :: cs) = (c :: s2) :: ss2 := by
        unfold splitOnNL
        rw [if_neg hc, hb]
      rw [hOn]
      subst ih1
      exact ⟨rfl, ih2⟩

/-- C5 (amended): the initial paragraph list is obtained by splitting the
raw text at every newline character and discarding the segments that are
empty or whitespace-only (equivalently, splitting at runs of one or more
newline characters and dropping whitespace-only segments); the kept
segments are not trimmed. -/
theorem C5_amended_rawParagraphs :
    ∀ (text : JStr),
      rawParagraphs text = (splitOnNL text).filter hasTextContent := by
  intro text
  unfold rawParagraphs
  have hpred : (fun line : JStr => decide (0 < (jsTrim line).length)) = hasTextContent :=
    funext rawFilterPred
  rw [hpred]
  exact filter_eq_of_heads_tails text (splitNLRuns_heads_tails text)
